import Mathlib

/-!
Verification of `onnxruntime/core/util/qmath.h`.

Floats are modelled as exact rationals (`ℚ`); the comparisons, min/max
selections and clamps performed by the code are exact on IEEE floats, so the
control flow of the embedded definitions matches the source on every finite
input.  Non-finite values only matter for `RoundHalfToEven`, which is embedded
over a small sum type `Flt` carrying NaN and the two infinities.

The MLAS vector kernels (`MlasFindMinMaxElement`, `MlasQuantizeLinearS4/U4`)
are collaborators that are not part of this repository's sources; they are
modelled from the spec and marked as such.  `TryParallelFor` partitions
`[0, num_blocks)` into contiguous chunks, one invocation per chunk; the chunk
list is passed explicitly so theorems quantify over every possible schedule.
-/

/-- Round to nearest integer with ties to even: the integral value `n` nearest
to `q` produced by `std::remainderf(q, 1)` (and by `std::nearbyintf` in the
default rounding mode). -/
def rne (q : ℚ) : ℤ :=
  if q - ⌊q⌋ < 1/2 then ⌊q⌋
  else if 1/2 < q - ⌊q⌋ then ⌊q⌋ + 1
  else if ⌊q⌋ % 2 = 0 then ⌊q⌋ else ⌊q⌋ + 1

/-- A float value: an exact finite rational, NaN, or one of the infinities. -/
inductive Flt where
  | fin (q : ℚ)
  | nan
  | inf
  | neginf
  deriving DecidableEq

/-- Embeds `RoundHalfToEven` (qmath.h lines 16-22): a non-finite input is
returned unchanged; a finite input `x` returns `x - remainderf(x, 1)`, the
integer nearest `x` with ties resolved to the even integer. -/
def RoundHalfToEven : Flt → Flt
  | .fin q => .fin ((rne q : ℤ) : ℚ)
  | .nan => .nan
  | .inf => .inf
  | .neginf => .neginf

lemma abs_sub_rne_le (q : ℚ) : |q - rne q| ≤ 1/2 := by
  unfold rne
  have h0 : (⌊q⌋ : ℚ) ≤ q := Int.floor_le q
  have h1 : q < ⌊q⌋ + 1 := Int.lt_floor_add_one q
  split_ifs with hr hr2 hev <;> rw [abs_le] <;> constructor <;>
    push_cast <;> linarith

lemma rne_tie (q : ℚ) :
    |q - rne q| < 1/2 ∨ (|q - rne q| = 1/2 ∧ rne q % 2 = 0) := by
  unfold rne
  have h0 : (⌊q⌋ : ℚ) ≤ q := Int.floor_le q
  have h1 : q < ⌊q⌋ + 1 := Int.lt_floor_add_one q
  split_ifs with hr hr2 hev
  · left
    rw [abs_lt]
    constructor <;> push_cast <;> linarith
  · left
    rw [abs_lt]
    constructor <;> push_cast <;> linarith
  · right
    have hq : q - (⌊q⌋ : ℚ) = 1/2 := le_antisymm (not_lt.mp hr2) (not_lt.mp hr)
    constructor
    · rw [abs_of_nonneg] <;> push_cast <;> linarith
    · exact hev
  · right
    have hq : q - (⌊q⌋ : ℚ) = 1/2 := le_antisymm (not_lt.mp hr2) (not_lt.mp hr)
    constructor
    · have : q - ((⌊q⌋ + 1 : ℤ) : ℚ) = -(1/2) := by push_cast; linarith
      rw [this, abs_neg, abs_of_nonneg] <;> norm_num
    · have h2 : ⌊q⌋ % 2 = 0 ∨ ⌊q⌋ % 2 = 1 := Int.emod_two_eq_zero_or_one ⌊q⌋
      omega

lemma rne_nearest (q : ℚ) (m : ℤ) : |q - rne q| ≤ |q - m| := by
  rcases eq_or_ne m (rne q) with h | h
  · rw [h]
  · have h1 : (1 : ℤ) ≤ |m - rne q| := Int.one_le_abs (sub_ne_zero.mpr h)
    have h1q : (1 : ℚ) ≤ |(m : ℚ) - (rne q : ℚ)| := by exact_mod_cast h1
    have h2 := abs_sub_rne_le q
    have h3 : |(m : ℚ) - (rne q : ℚ)| ≤ |(m : ℚ) - q| + |q - (rne q : ℚ)| :=
      abs_sub_le _ _ _
    have h4 : |(m : ℚ) - q| = |q - (m : ℚ)| := abs_sub_comm _ _
    linarith

lemma rne_ge (a : ℤ) (q : ℚ) (h : (a : ℚ) ≤ q) : a ≤ rne q := by
  have h1 := abs_sub_rne_le q
  rw [abs_le] at h1
  by_contra hc
  have hc2 : rne q ≤ a - 1 := by omega
  have hc3 : ((rne q : ℤ) : ℚ) ≤ (a : ℚ) - 1 := by exact_mod_cast hc2
  linarith [h1.2]

lemma rne_le (b : ℤ) (q : ℚ) (h : q ≤ (b : ℚ)) : rne q ≤ b := by
  have h1 := abs_sub_rne_le q
  rw [abs_le] at h1
  by_contra hc
  have hc2 : b + 1 ≤ rne q := by omega
  have hc3 : (b : ℚ) + 1 ≤ ((rne q : ℤ) : ℚ) := by exact_mod_cast hc2
  linarith [h1.1]

/-- C9: RoundHalfToEven maps every finite input to the nearest integer-valued
float, resolving exact halves to the even integer (0.5 ↦ 0, 1.5 ↦ 2,
2.5 ↦ 2), and passes every non-finite input (NaN, +inf, -inf) through
unchanged. -/
theorem RoundHalfToEven_spec :
    (∀ q : ℚ, RoundHalfToEven (Flt.fin q) = Flt.fin ((rne q : ℤ) : ℚ)) ∧
    (∀ q : ℚ, ∀ m : ℤ, |q - ((rne q : ℤ) : ℚ)| ≤ |q - (m : ℚ)|) ∧
    (∀ q : ℚ, |q - ((rne q : ℤ) : ℚ)| < 1/2 ∨
      (|q - ((rne q : ℤ) : ℚ)| = 1/2 ∧ rne q % 2 = 0)) ∧
    RoundHalfToEven (Flt.fin (1/2)) = Flt.fin 0 ∧
    RoundHalfToEven (Flt.fin (3/2)) = Flt.fin 2 ∧
    RoundHalfToEven (Flt.fin (5/2)) = Flt.fin 2 ∧
    RoundHalfToEven Flt.nan = Flt.nan ∧
    RoundHalfToEven Flt.inf = Flt.inf ∧
    RoundHalfToEven Flt.neginf = Flt.neginf := by
  refine ⟨fun q => rfl, rne_nearest, rne_tie, ?_, ?_, ?_, rfl, rfl, rfl⟩ <;>
    simp only [RoundHalfToEven, Flt.fin.injEq] <;> norm_num [rne]

/-- The quantized output element type: the two `is_quant_type` instantiations
of `GetQuantizationParameter` (int8_t and uint8_t). -/
inductive QType where
  | i8
  | u8
  deriving DecidableEq

/-- std::numeric_limits<QType>::min(). -/
def QType.tmin : QType → ℤ
  | .i8 => -128
  | .u8 => 0

/-- std::numeric_limits<QType>::max(). -/
def QType.tmax : QType → ℤ
  | .i8 => 127
  | .u8 => 255

/-- static_cast to the 8-bit output type, with modular wrap-around. -/
def QType.cast : QType → ℤ → ℤ
  | .i8, n => (n + 128) % 256 - 128
  | .u8, n => n % 256

/-- Effective qmin (qmath.h lines 89-95): the ReduceRange narrowing to -64
applies only to the signed 8-bit instantiation. -/
def effQmin (qt : QType) (reduceRange : Bool) : ℤ :=
  if qt = QType.i8 ∧ reduceRange = true then -64 else qt.tmin

/-- Effective qmax (qmath.h lines 89-95). -/
def effQmax (qt : QType) (reduceRange : Bool) : ℤ :=
  if qt = QType.i8 ∧ reduceRange = true then 64 else qt.tmax

/-- qmath.h lines 84-86: widen the reduced range so that it includes zero. -/
def widenToZero (mn mx : ℚ) : ℚ × ℚ := (min mn 0, max mx 0)

/-- qmath.h lines 84-107: from the merged (min, max), widen to include zero
and derive (scale, zero_point).  The Symmetric branch applies only to the
signed 8-bit instantiation; otherwise scale is (max-min)/(qmax-qmin) with the
degenerate max = min case defaulting to 1, and the zero point is the clamped,
round-half-to-even quotient narrowed by static_cast. -/
def deriveScaleZeroPoint (qt : QType) (reduceRange symmetric : Bool)
    (mn0 mx0 : ℚ) : ℚ × ℤ :=
  let mn := (widenToZero mn0 mx0).1
  let mx := (widenToZero mn0 mx0).2
  let qmn := effQmin qt reduceRange
  let qmx := effQmax qt reduceRange
  if qt = QType.i8 ∧ symmetric = true then
    (if 0 < max mx (-mn) then max mx (-mn) / (qmx : ℚ) else 1, 0)
  else
    let scale : ℚ := if mx = mn then 1 else (mx - mn) / ((qmx - qmn : ℤ) : ℚ)
    (scale, qt.cast (rne (max (qmn : ℚ) (min (qmx : ℚ) ((qmn : ℚ) - mn / scale)))))

/-- std::numeric_limits<float>::max() as an exact rational:
(2 - 2^-23) * 2^127. -/
def floatMax : ℚ := 2^128 - 2^104

/-- std::numeric_limits<float>::lowest(). -/
def floatLowest : ℚ := -floatMax

/-- qmath.h lines 53-63: the block partition chosen by
GetQuantizationParameter.  Returns (block_size, num_blocks): with a usable
thread pool and more than `granularity = 128` elements, the element count is
split over at most MAX_DEGREE_OF_PAR_FOR_MINMAX = 32 blocks whose size is
rounded up to a multiple of 128; otherwise a single block of size N. -/
def choosePartition (shouldParallelize : Bool) (numElem : ℕ) : ℕ × ℕ :=
  if shouldParallelize = true ∧ 128 < numElem then
    ((((numElem + 32 - 1) / 32) + 128 - 1) / 128 * 128,
     (numElem + ((((numElem + 32 - 1) / 32) + 128 - 1) / 128 * 128) - 1) /
       ((((numElem + 32 - 1) / 32) + 128 - 1) / 128 * 128))
  else
    (numElem, 1)

/-- Modelled from the spec: `MlasFindMinMaxElement` is a vector-kernel
collaborator that is not under src/; per spec section 6 it returns the
minimum and maximum of the scanned sub-range (here the index range
[lo, hi) of `data`), an empty scan leaving the accumulator identities
(+FLT_MAX, lowest) that qmath.h line 66-67 initializes the slots with. -/
def mlasFindMinMaxElement (data : List ℚ) (lo hi : ℕ) : ℚ × ℚ :=
  (((data.drop lo).take (hi - lo)).foldl min floatMax,
   ((data.drop lo).take (hi - lo)).foldl max floatLowest)

/-- The initial per-block accumulator values (qmath.h lines 65-68). -/
def initialAggregate : ℕ → ℚ × ℚ := fun _ => (floatMax, floatLowest)

/-- Store a value into one slot of the aggregate array. -/
def updateSlot (agg : ℕ → ℚ × ℚ) (i : ℕ) (v : ℚ × ℚ) : ℕ → ℚ × ℚ :=
  fun j => if j = i then v else agg j

/-- qmath.h lines 71-76: the TryParallelFor body of the min/max reduction.
Each contiguous chunk [b, b + len) of blocks is one invocation: it scans the
element range [b * bs, min N ((b + len) * bs)) and stores the result in
aggregate slot b % nb. -/
def runMinMaxChunks (data : List ℚ) (bs nb : ℕ) :
    ℕ → List ℕ → (ℕ → ℚ × ℚ) → (ℕ → ℚ × ℚ)
  | _, [], agg => agg
  | b, len :: rest, agg =>
    runMinMaxChunks data bs nb (b + len) rest
      (updateSlot agg (b % nb)
        (mlasFindMinMaxElement data (b * bs) (min data.length ((b + len) * bs))))

/-- qmath.h lines 78-83: sequential merge of the aggregate slots, starting
from slot 0 and folding slots 1 .. nb-1. -/
def mergeAggregate (agg : ℕ → ℚ × ℚ) (nb : ℕ) : ℚ × ℚ :=
  (List.range' 1 (nb - 1)).foldl
    (fun a i => (min a.1 (agg i).1, max a.2 (agg i).2)) (agg 0)

/-- qmath.h lines 48-108: GetQuantizationParameter.  `data` is the input
buffer (num_of_elements = data.length), `shouldParallelize` the thread-pool
predicate, and `chunks` the contiguous chunk lengths into which TryParallelFor
splits [0, num_blocks).  Returns (scale, zero_point). -/
def GetQuantizationParameter (qt : QType) (reduceRange symmetric : Bool)
    (data : List ℚ) (shouldParallelize : Bool) (chunks : List ℕ) : ℚ × ℤ :=
  let p := choosePartition shouldParallelize data.length
  let mm := mergeAggregate (runMinMaxChunks data p.1 p.2 0 chunks initialAggregate) p.2
  deriveScaleZeroPoint qt reduceRange symmetric mm.1 mm.2

/-- C4: the widening applied between the min/max reduction and the
scale/zero-point derivation forces min ≤ 0 and max ≥ 0; it only ever widens
the range, and the derivation depends on the range only through its widened
form. -/
theorem widenToZero_spec :
    (∀ mn mx : ℚ, (widenToZero mn mx).1 ≤ 0 ∧ 0 ≤ (widenToZero mn mx).2 ∧
      (widenToZero mn mx).1 ≤ mn ∧ mx ≤ (widenToZero mn mx).2) ∧
    (∀ qt rr sym, ∀ mn mx : ℚ,
      deriveScaleZeroPoint qt rr sym mn mx =
        deriveScaleZeroPoint qt rr sym (widenToZero mn mx).1 (widenToZero mn mx).2) := by
  constructor
  · exact fun mn mx =>
      ⟨min_le_right _ _, le_max_right _ _, min_le_left _ _, le_max_left _ _⟩
  · intro qt rr sym mn mx
    have h1 : min (min mn 0) 0 = min mn 0 := by rw [min_assoc, min_self]
    have h2 : max (max mx 0) 0 = max mx 0 := by rw [max_assoc, max_self]
    simp only [deriveScaleZeroPoint, widenToZero, h1, h2]

lemma effQmax_pos (qt : QType) (rr : Bool) : 0 < effQmax qt rr := by
  cases qt <;> cases rr <;> decide

lemma effQmin_lt_effQmax (qt : QType) (rr : Bool) :
    effQmin qt rr < effQmax qt rr := by
  cases qt <;> cases rr <;> decide

lemma deriveScale_pos (qt : QType) (rr sym : Bool) (mn mx : ℚ) :
    0 < (deriveScaleZeroPoint qt rr sym mn mx).1 := by
  have hmn : min mn 0 ≤ 0 := min_le_right _ _
  have hmx : (0 : ℚ) ≤ max mx 0 := le_max_right _ _
  have hq : (0 : ℚ) < ((effQmax qt rr : ℤ) : ℚ) := by
    exact_mod_cast effQmax_pos qt rr
  have hqq : (0 : ℚ) < (((effQmax qt rr - effQmin qt rr) : ℤ) : ℚ) := by
    have := effQmin_lt_effQmax qt rr
    exact_mod_cast sub_pos.mpr this
  simp only [deriveScaleZeroPoint, widenToZero]
  split_ifs with h1 h2 h3
  · exact div_pos h2 hq
  · norm_num
  · norm_num
  · have hle : min mn 0 ≤ max mx 0 := le_trans hmn hmx
    have hlt : min mn 0 < max mx 0 := lt_of_le_of_ne hle (Ne.symm h3)
    exact div_pos (sub_pos.mpr hlt) hqq

/-- C7: for every input buffer, every TryParallelFor schedule and every
combination of the ReduceRange and Symmetric flags, the scale returned by
GetQuantizationParameter is strictly positive (never negative, never zero);
the degenerate cases - equal widened min and max in the asymmetric branch,
non-positive magnitude in the symmetric branch - default to 1. -/
theorem GetQuantizationParameter_scale_pos :
    (∀ qt rr sym, ∀ data : List ℚ, ∀ sp : Bool, ∀ chunks : List ℕ,
      0 < (GetQuantizationParameter qt rr sym data sp chunks).1) ∧
    (∀ qt rr sym, ∀ mn mx : ℚ, 0 < (deriveScaleZeroPoint qt rr sym mn mx).1) ∧
    (∀ qt rr sym, ∀ mn mx : ℚ, ¬(qt = QType.i8 ∧ sym = true) →
      max mx 0 = min mn 0 → (deriveScaleZeroPoint qt rr sym mn mx).1 = 1) ∧
    (∀ rr, ∀ mn mx : ℚ, ¬(0 < max (max mx 0) (-(min mn 0))) →
      (deriveScaleZeroPoint QType.i8 rr true mn mx).1 = 1) := by
  refine ⟨fun qt rr sym data sp chunks => deriveScale_pos qt rr sym _ _,
          deriveScale_pos, ?_, ?_⟩
  · intro qt rr sym mn mx h hdeg
    simp only [deriveScaleZeroPoint, widenToZero, if_neg h, hdeg, if_pos rfl]
    simp
  · intro rr mn mx h
    simp only [deriveScaleZeroPoint, widenToZero]
    rw [if_pos ⟨trivial, trivial⟩, if_neg h]

/-- C8: whenever GetQuantizationParameter takes the parallel branch (pool
usable and more than 128 elements), the chosen block size is a positive
multiple of the granularity 128, the blocks cover all elements, and the block
count never exceeds MAX_DEGREE_OF_PAR_FOR_MINMAX = 32 (so every aggregate
write is in bounds); otherwise a single block of size N is used. -/
theorem choosePartition_spec (sp : Bool) (n : ℕ) (hsp : sp = true)
    (hn : 128 < n) :
    0 < (choosePartition sp n).1 ∧
    (choosePartition sp n).1 % 128 = 0 ∧
    n ≤ (choosePartition sp n).2 * (choosePartition sp n).1 ∧
    (choosePartition sp n).2 ≤ 32 ∧
    (∀ b, b < (choosePartition sp n).2 → b < 32) ∧
    (∀ sp' : Bool, ∀ m : ℕ, ¬(sp' = true ∧ 128 < m) →
      choosePartition sp' m = (m, 1)) := by
  have hcond : sp = true ∧ 128 < n := ⟨hsp, hn⟩
  simp only [choosePartition, if_pos hcond]
  have hbs0 : 1 ≤ (n + 32 - 1) / 32 := by omega
  have hbs_ge : (n + 32 - 1) / 32 ≤ ((n + 32 - 1) / 32 + 128 - 1) / 128 * 128 := by
    have h := le_smul_ceilDiv (b := (n + 32 - 1) / 32) (by norm_num : (0:ℕ) < 128)
    rw [Nat.ceilDiv_eq_add_pred_div] at h
    calc (n + 32 - 1) / 32 ≤ 128 * (((n + 32 - 1) / 32 + 128 - 1) / 128) := h
      _ = ((n + 32 - 1) / 32 + 128 - 1) / 128 * 128 := Nat.mul_comm _ _
  have hbs_pos : 0 < ((n + 32 - 1) / 32 + 128 - 1) / 128 * 128 := by omega
  have hbs_mod : (((n + 32 - 1) / 32 + 128 - 1) / 128 * 128) % 128 = 0 :=
    Nat.mul_mod_left _ _
  have hn32 : n ≤ 32 * ((n + 32 - 1) / 32) := by
    have h := le_smul_ceilDiv (b := n) (by norm_num : (0:ℕ) < 32)
    rwa [Nat.ceilDiv_eq_add_pred_div] at h
  refine ⟨hbs_pos, hbs_mod, ?_, ?_, ?_, ?_⟩
  · have h := le_smul_ceilDiv (b := n) hbs_pos
    rw [Nat.ceilDiv_eq_add_pred_div] at h
    calc n ≤ _ * (_ / _) := h
      _ = _ := Nat.mul_comm _ _
  · have h := (ceilDiv_le_iff_le_mul hbs_pos
      (b := n) (c := 32)).mpr ?_
    · rwa [Nat.ceilDiv_eq_add_pred_div] at h
    · calc n ≤ 32 * ((n + 32 - 1) / 32) := hn32
        _ ≤ 32 * (((n + 32 - 1) / 32 + 128 - 1) / 128 * 128) := by
            exact Nat.mul_le_mul_left 32 hbs_ge
        _ = (((n + 32 - 1) / 32 + 128 - 1) / 128 * 128) * 32 := Nat.mul_comm _ _
  · intro b hb
    have h := (ceilDiv_le_iff_le_mul hbs_pos (b := n) (c := 32)).mpr ?_
    · rw [Nat.ceilDiv_eq_add_pred_div] at h
      omega
    · calc n ≤ 32 * ((n + 32 - 1) / 32) := hn32
        _ ≤ 32 * (((n + 32 - 1) / 32 + 128 - 1) / 128 * 128) := by
            exact Nat.mul_le_mul_left 32 hbs_ge
        _ = (((n + 32 - 1) / 32 + 128 - 1) / 128 * 128) * 32 := Nat.mul_comm _ _
  · intro sp' m h
    simp only [choosePartition, if_neg h]

/-- C8 witness: the parallel branch at 129 elements. -/
theorem choosePartition_spec_witness :
    0 < (choosePartition true 129).1 ∧
    (choosePartition true 129).1 % 128 = 0 ∧
    129 ≤ (choosePartition true 129).2 * (choosePartition true 129).1 ∧
    (choosePartition true 129).2 ≤ 32 ∧
    (∀ b, b < (choosePartition true 129).2 → b < 32) ∧
    (∀ sp' : Bool, ∀ m : ℕ, ¬(sp' = true ∧ 128 < m) →
      choosePartition sp' m = (m, 1)) :=
  choosePartition_spec true 129 rfl (by norm_num)

lemma QType.cast_eq_self (qt : QType) (n : ℤ) (h1 : qt.tmin ≤ n)
    (h2 : n ≤ qt.tmax) : qt.cast n = n := by
  cases qt <;> simp only [QType.cast, QType.tmin, QType.tmax] at * <;> omega

/-- C5: in the asymmetric case the zero point is
round_half_to_even(clamp(qmin - min/scale, qmin, qmax)) narrowed to the
output type, and it always lies inside the type's representable range, so
the static_cast never wraps. -/
theorem deriveZeroPoint_spec (qt : QType) (rr sym : Bool) (mn mx : ℚ)
    (h : ¬(qt = QType.i8 ∧ sym = true)) :
    (deriveScaleZeroPoint qt rr sym mn mx).2 =
      rne (max ((effQmin qt rr : ℤ) : ℚ) (min ((effQmax qt rr : ℤ) : ℚ)
        (((effQmin qt rr : ℤ) : ℚ) -
          (min mn 0) / (deriveScaleZeroPoint qt rr sym mn mx).1))) ∧
    qt.tmin ≤ (deriveScaleZeroPoint qt rr sym mn mx).2 ∧
    (deriveScaleZeroPoint qt rr sym mn mx).2 ≤ qt.tmax := by
  have hqQ : ((effQmin qt rr : ℤ) : ℚ) ≤ ((effQmax qt rr : ℤ) : ℚ) := by
    exact_mod_cast le_of_lt (effQmin_lt_effQmax qt rr)
  have ht1 : qt.tmin ≤ effQmin qt rr := by cases qt <;> cases rr <;> decide
  have ht2 : effQmax qt rr ≤ qt.tmax := by cases qt <;> cases rr <;> decide
  simp only [deriveScaleZeroPoint, widenToZero, if_neg h]
  set s : ℚ := if max mx 0 = min mn 0 then 1
    else (max mx 0 - min mn 0) / ((effQmax qt rr - effQmin qt rr : ℤ) : ℚ) with hs
  set c : ℚ := max ((effQmin qt rr : ℤ) : ℚ) (min ((effQmax qt rr : ℤ) : ℚ)
    (((effQmin qt rr : ℤ) : ℚ) - (min mn 0) / s)) with hc
  have hc1 : ((effQmin qt rr : ℤ) : ℚ) ≤ c := le_max_left _ _
  have hc2 : c ≤ ((effQmax qt rr : ℤ) : ℚ) := max_le hqQ (min_le_left _ _)
  have hr1 : effQmin qt rr ≤ rne c := rne_ge _ _ hc1
  have hr2 : rne c ≤ effQmax qt rr := rne_le _ _ hc2
  have hcast : qt.cast (rne c) = rne c :=
    QType.cast_eq_self qt _ (le_trans ht1 hr1) (le_trans hr2 ht2)
  refine ⟨hcast, ?_, ?_⟩
  · rw [hcast]
    exact le_trans ht1 hr1
  · rw [hcast]
    exact le_trans hr2 ht2

/-- C5 witness: unsigned 8-bit output, min = -1, max = 3. -/
theorem deriveZeroPoint_spec_witness :
    (deriveScaleZeroPoint QType.u8 false false (-1) 3).2 =
      rne (max ((effQmin QType.u8 false : ℤ) : ℚ)
        (min ((effQmax QType.u8 false : ℤ) : ℚ)
        (((effQmin QType.u8 false : ℤ) : ℚ) -
          (min (-1) 0) / (deriveScaleZeroPoint QType.u8 false false (-1) 3).1))) ∧
    QType.u8.tmin ≤ (deriveScaleZeroPoint QType.u8 false false (-1) 3).2 ∧
    (deriveScaleZeroPoint QType.u8 false false (-1) 3).2 ≤ QType.u8.tmax :=
  deriveZeroPoint_spec QType.u8 false false (-1) 3 (by simp)

lemma deriveSym_zeroPoint (rr : Bool) (mn mx : ℚ) :
    (deriveScaleZeroPoint QType.i8 rr true mn mx).2 = 0 := by
  simp only [deriveScaleZeroPoint, widenToZero]
  rw [if_pos ⟨trivial, trivial⟩]

/-- C6: symmetric signed 8-bit quantization always returns zero_point = 0 and
scale = max(|min|, max) / qmax when that magnitude is positive (1.0
otherwise); the asymmetric formula is never applied, and the all-zero input
with symmetric = true yields scale = 1 and zero_point = 0. -/
theorem symmetric_mode_spec :
    (∀ rr : Bool, ∀ data : List ℚ, ∀ sp : Bool, ∀ chunks : List ℕ,
      (GetQuantizationParameter QType.i8 rr true data sp chunks).2 = 0) ∧
    (∀ rr : Bool, ∀ mn mx : ℚ,
      deriveScaleZeroPoint QType.i8 rr true mn mx =
        (if 0 < max |min mn 0| (max mx 0) then
           max |min mn 0| (max mx 0) / ((effQmax QType.i8 rr : ℤ) : ℚ)
         else 1, 0)) ∧
    GetQuantizationParameter QType.i8 false true [0, 0, 0] false [1] = (1, 0) := by
  refine ⟨?_, ?_, ?_⟩
  · intro rr data sp chunks
    exact deriveSym_zeroPoint rr _ _
  · intro rr mn mx
    have habs : |min mn 0| = -(min mn 0) := abs_of_nonpos (min_le_right _ _)
    have hmm : max (max mx 0) (-(min mn 0)) = max |min mn 0| (max mx 0) := by
      rw [habs, max_comm]
    simp only [deriveScaleZeroPoint, widenToZero]
    rw [if_pos ⟨trivial, trivial⟩, hmm]
  · norm_num [GetQuantizationParameter, choosePartition, mergeAggregate,
      runMinMaxChunks, updateSlot, mlasFindMinMaxElement, initialAggregate,
      floatMax, floatLowest, deriveScaleZeroPoint, widenToZero, effQmax]

lemma foldl_min_min (l : List ℚ) : ∀ a b : ℚ,
    l.foldl min (min a b) = min a (l.foldl min b) := by
  induction l with
  | nil => intro a b; rfl
  | cons x t ih =>
    intro a b
    show t.foldl min (min (min a b) x) = min a (t.foldl min (min b x))
    rw [min_assoc, ih a (min b x)]

lemma foldl_max_max (l : List ℚ) : ∀ a b : ℚ,
    l.foldl max (max a b) = max a (l.foldl max b) := by
  induction l with
  | nil => intro a b; rfl
  | cons x t ih =>
    intro a b
    show t.foldl max (max (max a b) x) = max a (t.foldl max (max b x))
    rw [max_assoc, ih a (max b x)]

lemma foldl_min_le_init (l : List ℚ) : ∀ a : ℚ, l.foldl min a ≤ a := by
  induction l with
  | nil => intro a; exact le_refl a
  | cons x t ih =>
    intro a
    exact le_trans (ih (min a x)) (min_le_left _ _)

lemma foldl_max_ge_init (l : List ℚ) : ∀ a : ℚ, a ≤ l.foldl max a := by
  induction l with
  | nil => intro a; exact le_refl a
  | cons x t ih =>
    intro a
    exact le_trans (le_max_left _ _) (ih (max a x))

lemma foldl_min_append (l1 l2 : List ℚ) (a : ℚ) :
    (l1 ++ l2).foldl min a = min (l1.foldl min a) (l2.foldl min a) := by
  rw [List.foldl_append]
  have h1 : l1.foldl min a ≤ a := foldl_min_le_init l1 a
  have h2 : min (l1.foldl min a) a = l1.foldl min a := min_eq_left h1
  calc l2.foldl min (l1.foldl min a)
      = l2.foldl min (min (l1.foldl min a) a) := by rw [h2]
    _ = min (l1.foldl min a) (l2.foldl min a) := foldl_min_min l2 _ a

lemma foldl_max_append (l1 l2 : List ℚ) (a : ℚ) :
    (l1 ++ l2).foldl max a = max (l1.foldl max a) (l2.foldl max a) := by
  rw [List.foldl_append]
  have h1 : a ≤ l1.foldl max a := foldl_max_ge_init l1 a
  have h2 : max (l1.foldl max a) a = l1.foldl max a := max_eq_left h1
  calc l2.foldl max (l1.foldl max a)
      = l2.foldl max (max (l1.foldl max a) a) := by rw [h2]
    _ = max (l1.foldl max a) (l2.foldl max a) := foldl_max_max l2 _ a

lemma slice_split (data : List ℚ) (lo mid hi : ℕ) (h1 : lo ≤ mid)
    (h2 : mid ≤ hi) :
    (data.drop lo).take (hi - lo) =
      (data.drop lo).take (mid - lo) ++ (data.drop mid).take (hi - mid) := by
  have h3 : hi - lo = (mid - lo) + (hi - mid) := by omega
  have h5 : lo + (mid - lo) = mid := by omega
  rw [h3, List.take_add, List.drop_drop, h5]

lemma mlas_split (data : List ℚ) (lo mid hi : ℕ) (h1 : lo ≤ mid)
    (h2 : mid ≤ hi) :
    mlasFindMinMaxElement data lo hi =
      (min (mlasFindMinMaxElement data lo mid).1
           (mlasFindMinMaxElement data mid hi).1,
       max (mlasFindMinMaxElement data lo mid).2
           (mlasFindMinMaxElement data mid hi).2) := by
  simp only [mlasFindMinMaxElement]
  rw [slice_split data lo mid hi h1 h2, foldl_min_append, foldl_max_append]

lemma mlas_bounds (data : List ℚ) (lo hi : ℕ) :
    (mlasFindMinMaxElement data lo hi).1 ≤ floatMax ∧
    floatLowest ≤ (mlasFindMinMaxElement data lo hi).2 :=
  ⟨foldl_min_le_init _ _, foldl_max_ge_init _ _⟩

lemma mlas_empty (data : List ℚ) (lo hi : ℕ) (h : hi ≤ lo) :
    mlasFindMinMaxElement data lo hi = (floatMax, floatLowest) := by
  simp only [mlasFindMinMaxElement]
  have h1 : hi - lo = 0 := by omega
  rw [h1]
  rfl

/-- The merge step applied by qmath.h lines 80-83. -/
def mergeStep (agg : ℕ → ℚ × ℚ) (a : ℚ × ℚ) (i : ℕ) : ℚ × ℚ :=
  (min a.1 (agg i).1, max a.2 (agg i).2)

lemma mergeAggregate_eq_fold (agg : ℕ → ℚ × ℚ) (nb : ℕ) (h : 1 ≤ nb)
    (h0 : (agg 0).1 ≤ floatMax ∧ floatLowest ≤ (agg 0).2) :
    mergeAggregate agg nb =
      (List.range' 0 nb).foldl (mergeStep agg) (floatMax, floatLowest) := by
  have hnb : nb = (nb - 1) + 1 := by omega
  rw [hnb, List.range'_succ]
  show mergeAggregate agg ((nb - 1) + 1) =
    (List.range' 1 (nb - 1)).foldl (mergeStep agg) (mergeStep agg (floatMax, floatLowest) 0)
  have hstep : mergeStep agg (floatMax, floatLowest) 0 = agg 0 := by
    simp only [mergeStep]
    rw [min_eq_right h0.1, max_eq_right h0.2]
  rw [hstep]
  simp only [mergeAggregate, mergeStep, Nat.add_sub_cancel]
  rfl

lemma runMinMaxChunks_frozen (data : List ℚ) (bs nb : ℕ) :
    ∀ chunks b agg, b + chunks.sum = nb → (∀ l ∈ chunks, 0 < l) →
      ∀ i, i < b → runMinMaxChunks data bs nb b chunks agg i = agg i := by
  intro chunks
  induction chunks with
  | nil => intro b agg hsum hpos i hi; rfl
  | cons len rest ih =>
    intro b agg hsum hpos i hi
    show runMinMaxChunks data bs nb (b + len) rest _ i = agg i
    have hlen : 0 < len := hpos len (List.mem_cons_self _ _)
    have hsum2 : (b + len) + rest.sum = nb := by
      simp only [List.sum_cons] at hsum
      omega
    have hpos2 : ∀ l ∈ rest, 0 < l := fun l hl => hpos l (List.mem_cons_of_mem _ hl)
    rw [ih (b + len) _ hsum2 hpos2 i (by omega)]
    have hb : b < nb := by omega
    simp only [updateSlot, Nat.mod_eq_of_lt hb]
    rw [if_neg (by omega)]

lemma fold_skip_initial (agg : ℕ → ℚ × ℚ) :
    ∀ idxs : List ℕ, ∀ acc : ℚ × ℚ,
      (∀ i ∈ idxs, agg i = (floatMax, floatLowest)) →
      acc.1 ≤ floatMax → floatLowest ≤ acc.2 →
      idxs.foldl (mergeStep agg) acc = acc := by
  intro idxs
  induction idxs with
  | nil => intro acc h hb1 hb2; rfl
  | cons i t ih =>
    intro acc h hb1 hb2
    show t.foldl (mergeStep agg) (mergeStep agg acc i) = acc
    have hi : agg i = (floatMax, floatLowest) := h i (List.mem_cons_self _ _)
    have hstep : mergeStep agg acc i = acc := by
      simp only [mergeStep, hi]
      rw [min_eq_left hb1, max_eq_left hb2]
    rw [hstep]
    exact ih acc (fun j hj => h j (List.mem_cons_of_mem _ hj)) hb1 hb2

lemma block_start_lt (L bs nb b : ℕ) (hbs : 0 < bs)
    (hnb : nb = (L + bs - 1) / bs) (hL : 0 < L) (hb : b < nb) : b * bs < L := by
  by_contra hc
  push_neg at hc
  have h1 : L ⌈/⌉ bs ≤ b := by
    refine (ceilDiv_le_iff_le_mul hbs).mpr ?_
    calc L ≤ b * bs := hc
      _ = bs * b := Nat.mul_comm _ _
  rw [Nat.ceilDiv_eq_add_pred_div] at h1
  omega

lemma blocks_cover (L bs nb : ℕ) (hbs : 0 < bs)
    (hnb : nb = (L + bs - 1) / bs) : L ≤ nb * bs := by
  have h := le_smul_ceilDiv (b := L) hbs
  rw [Nat.ceilDiv_eq_add_pred_div] at h
  calc L ≤ bs * ((L + bs - 1) / bs) := h
    _ = (L + bs - 1) / bs * bs := Nat.mul_comm _ _
    _ = nb * bs := by rw [hnb]

lemma runChunks_fold (data : List ℚ) (bs nb : ℕ) (hbs : 0 < bs)
    (hnb : nb = (data.length + bs - 1) / bs) (hL : 0 < data.length) :
    ∀ chunks : List ℕ, ∀ b : ℕ, ∀ agg : ℕ → ℚ × ℚ, ∀ acc : ℚ × ℚ,
      b + chunks.sum = nb → (∀ l ∈ chunks, 0 < l) →
      (∀ i, b ≤ i → agg i = (floatMax, floatLowest)) →
      acc.1 ≤ floatMax → floatLowest ≤ acc.2 →
      (List.range' b (nb - b)).foldl
          (mergeStep (runMinMaxChunks data bs nb b chunks agg)) acc
        = (min acc.1
            (mlasFindMinMaxElement data (min data.length (b * bs)) data.length).1,
           max acc.2
            (mlasFindMinMaxElement data (min data.length (b * bs)) data.length).2) := by
  intro chunks
  induction chunks with
  | nil =>
    intro b agg acc hsum hpos hinit hb1 hb2
    have hb : b = nb := by
      simp only [List.sum_nil] at hsum
      omega
    subst hb
    have hcov : data.length ≤ b * bs := blocks_cover data.length bs b hbs hnb
    have hmin : min data.length (b * bs) = data.length := min_eq_left hcov
    rw [hmin, mlas_empty data data.length data.length (le_refl _)]
    have hr : b - b = 0 := by omega
    rw [hr, List.range'_zero]
    show acc = _
    rw [min_eq_left hb1, max_eq_left hb2]
  | cons len rest ih =>
    intro b agg acc hsum hpos hinit hb1 hb2
    have hlen : 0 < len := hpos len (List.mem_cons_self _ _)
    have hsum2 : (b + len) + rest.sum = nb := by
      simp only [List.sum_cons] at hsum
      omega
    have hpos2 : ∀ l ∈ rest, 0 < l := fun l hl => hpos l (List.mem_cons_of_mem _ hl)
    have hb_lt : b < nb := by omega
    have hbbs : b * bs < data.length :=
      block_start_lt data.length bs nb b hbs hnb hL hb_lt
    have hc2lo : b * bs ≤ min data.length ((b + len) * bs) := by
      refine le_min (le_of_lt hbbs) ?_
      exact Nat.mul_le_mul_right bs (by omega)
    have hc2hi : min data.length ((b + len) * bs) ≤ data.length := min_le_left _ _
    show (List.range' b (nb - b)).foldl
        (mergeStep (runMinMaxChunks data bs nb (b + len) rest
          (updateSlot agg (b % nb)
            (mlasFindMinMaxElement data (b * bs)
              (min data.length ((b + len) * bs)))))) acc = _
    set agg2 : ℕ → ℚ × ℚ := updateSlot agg (b % nb)
      (mlasFindMinMaxElement data (b * bs) (min data.length ((b + len) * bs)))
      with hagg2
    set hfun : ℕ → ℚ × ℚ := runMinMaxChunks data bs nb (b + len) rest agg2
      with hhfun
    have hrange : List.range' b (nb - b) =
        List.range' b len ++ List.range' (b + len) (nb - (b + len)) := by
      have hcount : (nb - (b + len)) + len = nb - b := by omega
      rw [← hcount, ← List.range'_append_1]
    rw [hrange, List.foldl_append]
    have hseg : List.range' b len = b :: List.range' (b + 1) (len - 1) := by
      have hl : len = (len - 1) + 1 := by omega
      rw [hl, List.range'_succ, Nat.add_sub_cancel]
    rw [hseg]
    have hhb : hfun b =
        mlasFindMinMaxElement data (b * bs) (min data.length ((b + len) * bs)) := by
      rw [hhfun, runMinMaxChunks_frozen data bs nb rest (b + len) agg2 hsum2 hpos2
        b (by omega), hagg2]
      simp only [updateSlot, Nat.mod_eq_of_lt hb_lt, eq_self_iff_true, if_true]
    have hgap : ∀ i ∈ List.range' (b + 1) (len - 1),
        hfun i = (floatMax, floatLowest) := by
      intro i hi
      rw [List.mem_range'_1] at hi
      rw [hhfun, runMinMaxChunks_frozen data bs nb rest (b + len) agg2 hsum2 hpos2
        i (by omega), hagg2]
      simp only [updateSlot, Nat.mod_eq_of_lt hb_lt]
      rw [if_neg (by omega)]
      exact hinit i (by omega)
    have hstep1 : mergeStep hfun acc b =
        (min acc.1
          (mlasFindMinMaxElement data (b * bs) (min data.length ((b + len) * bs))).1,
         max acc.2
          (mlasFindMinMaxElement data (b * bs) (min data.length ((b + len) * bs))).2) := by
      simp only [mergeStep, hhb]
    rw [List.foldl_cons]
    have hacc1 : (mergeStep hfun acc b).1 ≤ floatMax := by
      rw [hstep1]
      exact le_trans (min_le_left _ _) hb1
    have hacc2 : floatLowest ≤ (mergeStep hfun acc b).2 := by
      rw [hstep1]
      exact le_trans hb2 (le_max_left _ _)
    rw [fold_skip_initial hfun _ _ hgap hacc1 hacc2]
    have hinit2 : ∀ i, b + len ≤ i → agg2 i = (floatMax, floatLowest) := by
      intro i hi
      rw [hagg2]
      simp only [updateSlot, Nat.mod_eq_of_lt hb_lt]
      rw [if_neg (by omega)]
      exact hinit i (by omega)
    rw [ih (b + len) agg2 (mergeStep hfun acc b) hsum2 hpos2 hinit2 hacc1 hacc2]
    rw [hstep1]
    have hminb : min data.length (b * bs) = b * bs := min_eq_right (le_of_lt hbbs)
    rw [hminb, mlas_split data (b * bs) (min data.length ((b + len) * bs))
      data.length hc2lo hc2hi]
    rw [Prod.mk.injEq]
    constructor
    · rw [min_assoc]
    · rw [max_assoc]

lemma foldl_min_le_mem (l : List ℚ) : ∀ a : ℚ, ∀ x ∈ l, l.foldl min a ≤ x := by
  induction l with
  | nil => intro a x hx; exact absurd hx (List.not_mem_nil x)
  | cons y t ih =>
    intro a x hx
    rcases List.mem_cons.mp hx with h | h
    · subst h
      exact le_trans (foldl_min_le_init t (min a x)) (min_le_right _ _)
    · exact ih (min a y) x h

lemma foldl_max_ge_mem (l : List ℚ) : ∀ a : ℚ, ∀ x ∈ l, x ≤ l.foldl max a := by
  induction l with
  | nil => intro a x hx; exact absurd hx (List.not_mem_nil x)
  | cons y t ih =>
    intro a x hx
    rcases List.mem_cons.mp hx with h | h
    · subst h
      exact le_trans (le_max_right _ _) (foldl_max_ge_init t (max a x))
    · exact ih (max a y) x h

lemma foldl_min_mem (l : List ℚ) : ∀ a : ℚ, l.foldl min a = a ∨ l.foldl min a ∈ l := by
  induction l with
  | nil => intro a; exact Or.inl rfl
  | cons y t ih =>
    intro a
    rcases ih (min a y) with h | h
    · rcases min_cases a y with ⟨he, _⟩ | ⟨he, _⟩
      · left
        show t.foldl min (min a y) = a
        rw [h, he]
      · right
        show t.foldl min (min a y) ∈ y :: t
        rw [h, he]
        exact List.mem_cons_self _ _
    · right
      exact List.mem_cons_of_mem _ h

lemma foldl_max_mem (l : List ℚ) : ∀ a : ℚ, l.foldl max a = a ∨ l.foldl max a ∈ l := by
  induction l with
  | nil => intro a; exact Or.inl rfl
  | cons y t ih =>
    intro a
    rcases ih (max a y) with h | h
    · rcases max_cases a y with ⟨he, _⟩ | ⟨he, _⟩
      · left
        show t.foldl max (max a y) = a
        rw [h, he]
      · right
        show t.foldl max (max a y) ∈ y :: t
        rw [h, he]
        exact List.mem_cons_self _ _
    · right
      exact List.mem_cons_of_mem _ h

lemma runChunks_slot_bounds (data : List ℚ) (bs nb : ℕ) :
    ∀ chunks : List ℕ, ∀ b : ℕ, ∀ agg : ℕ → ℚ × ℚ,
      (∀ j, (agg j).1 ≤ floatMax ∧ floatLowest ≤ (agg j).2) →
      ∀ i, ((runMinMaxChunks data bs nb b chunks agg) i).1 ≤ floatMax ∧
        floatLowest ≤ ((runMinMaxChunks data bs nb b chunks agg) i).2 := by
  intro chunks
  induction chunks with
  | nil => intro b agg h i; exact h i
  | cons len rest ih =>
    intro b agg h i
    refine ih (b + len) _ ?_ i
    intro j
    simp only [updateSlot]
    split_ifs with hj
    · exact mlas_bounds data _ _
    · exact h j

/-- C3: for every buffer, the (min, max) obtained by the per-block reduction
followed by the sequential merge of the accumulator slots equals the result of
scanning the whole buffer at once, for every block partition
GetQuantizationParameter can choose (the choosePartition conjunct shows both
its branches satisfy the admissibility hypotheses) and every TryParallelFor
schedule; the whole-buffer scan in turn yields the true minimum and maximum
of the buffer. -/
theorem minmax_partition_spec (data : List ℚ) (bs nb : ℕ)
    (chunks : List ℕ) (hbs : 0 < bs) (hnb : nb = (data.length + bs - 1) / bs)
    (hsum : chunks.sum = nb) (hpos : ∀ l ∈ chunks, 0 < l) (hne : data ≠ [])
    (hbound : ∀ x ∈ data, floatLowest ≤ x ∧ x ≤ floatMax) :
    mergeAggregate (runMinMaxChunks data bs nb 0 chunks initialAggregate) nb =
      mlasFindMinMaxElement data 0 data.length ∧
    (mlasFindMinMaxElement data 0 data.length).1 ∈ data ∧
    (mlasFindMinMaxElement data 0 data.length).2 ∈ data ∧
    (∀ x ∈ data, (mlasFindMinMaxElement data 0 data.length).1 ≤ x ∧
      x ≤ (mlasFindMinMaxElement data 0 data.length).2) ∧
    (∀ sp : Bool, 0 < (choosePartition sp data.length).1 ∧
      (choosePartition sp data.length).2 =
        (data.length + (choosePartition sp data.length).1 - 1) /
          (choosePartition sp data.length).1) := by
  have hL : 0 < data.length := List.length_pos.mpr hne
  have hnb1 : 1 ≤ nb := by
    rcases Nat.eq_zero_or_pos nb with h0 | h0
    · exfalso
      have hcov := blocks_cover data.length bs nb hbs hnb
      rw [h0, Nat.zero_mul] at hcov
      omega
    · exact h0
  have hslice : (data.drop 0).take (data.length - 0) = data := by
    rw [List.drop_zero, Nat.sub_zero, List.take_length]
  constructor
  · have hbounds0 := runChunks_slot_bounds data bs nb chunks 0 initialAggregate
      (fun j => ⟨le_refl _, le_refl _⟩) 0
    rw [mergeAggregate_eq_fold _ nb hnb1 hbounds0]
    have hfold := runChunks_fold data bs nb hbs hnb hL chunks 0 initialAggregate
      (floatMax, floatLowest) (by omega) hpos (fun i _ => rfl)
      (le_refl _) (le_refl _)
    rw [Nat.sub_zero] at hfold
    rw [hfold]
    have hz : min data.length (0 * bs) = 0 := by
      rw [Nat.zero_mul]
      exact Nat.min_zero _
    rw [hz]
    have hb := mlas_bounds data 0 data.length
    rw [Prod.mk.injEq]
    exact ⟨min_eq_right hb.1, max_eq_right hb.2⟩
  refine ⟨?_, ?_, ?_, ?_⟩
  · simp only [mlasFindMinMaxElement, hslice]
    rcases foldl_min_mem data floatMax with h | h
    · obtain ⟨x0, hx0⟩ := List.exists_mem_of_ne_nil data hne
      have h1 : data.foldl min floatMax ≤ x0 := foldl_min_le_mem data floatMax x0 hx0
      have h2 : x0 = floatMax := le_antisymm (hbound x0 hx0).2 (h ▸ h1)
      rw [h, ← h2]
      exact hx0
    · exact h
  · simp only [mlasFindMinMaxElement, hslice]
    rcases foldl_max_mem data floatLowest with h | h
    · obtain ⟨x0, hx0⟩ := List.exists_mem_of_ne_nil data hne
      have h1 : x0 ≤ data.foldl max floatLowest := foldl_max_ge_mem data floatLowest x0 hx0
      have h2 : x0 = floatLowest := le_antisymm (h ▸ h1) (hbound x0 hx0).1
      rw [h, ← h2]
      exact hx0
    · exact h
  · intro x hx
    simp only [mlasFindMinMaxElement, hslice]
    exact ⟨foldl_min_le_mem data floatMax x hx, foldl_max_ge_mem data floatLowest x hx⟩
  · intro sp
    simp only [choosePartition]
    split_ifs with hc
    · constructor
      · have hbs0 : 1 ≤ (data.length + 32 - 1) / 32 := by omega
        omega
      · rfl
    · constructor
      · exact hL
      · symm
        refine Nat.div_eq_of_lt_le ?_ ?_
        · omega
        · omega

/-- C3 witness: two elements, one block of size two, a single chunk. -/
theorem minmax_partition_spec_witness :
    mergeAggregate (runMinMaxChunks [(1 : ℚ), 2] 2 1 0 [1] initialAggregate) 1 =
      mlasFindMinMaxElement [(1 : ℚ), 2] 0 [(1 : ℚ), 2].length ∧
    (mlasFindMinMaxElement [(1 : ℚ), 2] 0 [(1 : ℚ), 2].length).1 ∈ [(1 : ℚ), 2] ∧
    (mlasFindMinMaxElement [(1 : ℚ), 2] 0 [(1 : ℚ), 2].length).2 ∈ [(1 : ℚ), 2] ∧
    (∀ x ∈ [(1 : ℚ), 2],
      (mlasFindMinMaxElement [(1 : ℚ), 2] 0 [(1 : ℚ), 2].length).1 ≤ x ∧
      x ≤ (mlasFindMinMaxElement [(1 : ℚ), 2] 0 [(1 : ℚ), 2].length).2) ∧
    (∀ sp : Bool, 0 < (choosePartition sp [(1 : ℚ), 2].length).1 ∧
      (choosePartition sp [(1 : ℚ), 2].length).2 =
        ([(1 : ℚ), 2].length + (choosePartition sp [(1 : ℚ), 2].length).1 - 1) /
          (choosePartition sp [(1 : ℚ), 2].length).1) :=
  minmax_partition_spec [(1 : ℚ), 2] 2 1 [1] (by norm_num) (by rfl) (by rfl)
    (by
      intro l hl
      rw [List.mem_singleton] at hl
      omega)
    (by simp)
    (by
      intro x hx
      simp only [List.mem_cons, List.not_mem_nil, or_false] at hx
      rcases hx with h | h <;> subst h <;>
        constructor <;> norm_num [floatMax, floatLowest])

/-- The packed 4-bit output buffer: byte index to (low nibble, high nibble).
Nibble contents are the clamped integer values (in range, so the byte packing
is information-preserving). -/
abbrev PackedOut : Type := ℕ → ℤ × ℤ

/-- INT4_TYPE::SetElem(0, v): overwrite the low nibble of byte i. -/
def setElem0 (i : ℕ) (v : ℤ) (out : PackedOut) (j : ℕ) : ℤ × ℤ :=
  if j = i then (v, (out j).2) else out j

/-- INT4_TYPE::SetElem(1, v): overwrite the high nibble of byte i. -/
def setElem1 (i : ℕ) (v : ℤ) (out : PackedOut) (j : ℕ) : ℤ × ℤ :=
  if j = i then ((out j).1, v) else out j

/-- Overwrite a whole byte (what the 4-bit MLAS kernel does pair-wise). -/
def setByte (i : ℕ) (v : ℤ × ℤ) (out : PackedOut) (j : ℕ) : ℤ × ℤ :=
  if j = i then v else out j

/-- Write logical 4-bit element j: byte j / 2, low nibble for even j, high
nibble for odd j. -/
def nibSet (j : ℕ) (v : ℤ) (out : PackedOut) : PackedOut :=
  if j % 2 = 0 then setElem0 (j / 2) v out else setElem1 (j / 2) v out

/-- Read logical 4-bit element j. -/
def nibGet (out : PackedOut) (j : ℕ) : ℤ :=
  if j % 2 = 0 then (out (j / 2)).1 else (out (j / 2)).2

/-- The two packed 4-bit element types of the macro instantiations. -/
inductive Int4Kind where
  | s4
  | u4
  deriving DecidableEq

/-- INT4_TYPE::min_val. -/
def Int4Kind.minVal : Int4Kind → ℤ
  | .s4 => -8
  | .u4 => 0

/-- INT4_TYPE::max_val. -/
def Int4Kind.maxVal : Int4Kind → ℤ
  | .s4 => 7
  | .u4 => 15

/-- One element of the 4-bit quantization: clamp(nearbyint(x / Scale) +
zero_point, min_val, max_val), as in the boundary branches of
DEFINE_PAR_QUANT_LINEAR_STD_4BIT (and, per the spec, the MLAS kernel). -/
def quant4 (t : Int4Kind) (scale : ℚ) (zp : ℤ) (x : ℚ) : ℤ :=
  min t.maxVal (max t.minVal (rne (x / scale) + zp))

/-- Modelled from the spec: MlasQuantizeLinearS4 / MlasQuantizeLinearU4 are
vector-kernel collaborators that are not under src/; per spec sections 4.4 and
6 the kernel quantizes n consecutive inputs with round-to-nearest-ties-even
and the clamp of `quant4`, packing two values per output byte starting at
byte `byteIdx` (a final unpaired element fills only a low nibble).  Reads go
through the optional indexer so that an out-of-range access yields `none`. -/
def mlasQuantizeLinear4 (t : Int4Kind) (scale : ℚ) (zp : ℤ) (input : List ℚ) :
    ℕ → ℕ → ℕ → PackedOut → Option PackedOut
  | _, _, 0, out => some out
  | inIdx, byteIdx, 1, out =>
    (input[inIdx]?).bind fun x =>
      some (setElem0 byteIdx (quant4 t scale zp x) out)
  | inIdx, byteIdx, n + 2, out =>
    (input[inIdx]?).bind fun x =>
      (input[inIdx + 1]?).bind fun y =>
        mlasQuantizeLinear4 t scale zp input (inIdx + 2) (byteIdx + 1) n
          (setByte byteIdx (quant4 t scale zp x, quant4 t scale zp y) out)

/-- The TryParallelFor dispatch of the 4-bit quantizer: for each contiguous
chunk [b, b + len) of blocks, call the MLAS kernel on elements
[b * 128, min N ((b + len) * 128)) with input cursor inp_start and output
byte (b * 128 + out_start) >> 1 (macro lines for the parallel region). -/
def run4BitChunks (t : Int4Kind) (scale : ℚ) (zp : ℤ) (input : List ℚ)
    (inpStart outStart n : ℕ) : ℕ → List ℕ → PackedOut → Option PackedOut
  | _, [], out => some out
  | b, len :: rest, out =>
    (mlasQuantizeLinear4 t scale zp input (b * 128 + inpStart)
        ((b * 128 + outStart) / 2) (min n ((b + len) * 128) - b * 128) out).bind
      fun out2 => run4BitChunks t scale zp input inpStart outStart n (b + len) rest out2

/-- DEFINE_PAR_QUANT_LINEAR_STD_4BIT (qmath.h lines 152-225): an odd
out_start element is quantized serially into the high nibble of byte
out_start >> 1; an odd out_end element into the low nibble of byte
(out_end - 1) >> 1; an empty remaining range returns early; the remaining
even-count range is dispatched in blocks of 128.  Out-of-range input reads
(including the size_t underflow of inp_end - 1 when inp_end = 0) give
`none`. -/
def ParQuantizeLinearStd4Bit (t : Int4Kind) (input : List ℚ)
    (outStartA outEndA : ℕ) (scale : ℚ) (zp : ℤ) (output : PackedOut)
    (chunks : List ℕ) : Option PackedOut :=
  let inpEnd := outEndA - outStartA
  let s1 : Option (PackedOut × ℕ × ℕ) :=
    if outStartA % 2 = 1 then
      (input[0]?).bind fun x =>
        some (setElem1 (outStartA / 2) (quant4 t scale zp x) output, outStartA + 1, 1)
    else some (output, outStartA, 0)
  s1.bind fun p1 =>
    let s2 : Option (PackedOut × ℕ) :=
      if outEndA % 2 = 1 then
        if inpEnd = 0 then none
        else (input[inpEnd - 1]?).bind fun x =>
          some (setElem0 ((outEndA - 1) / 2) (quant4 t scale zp x) p1.1, outEndA - 1)
      else some (p1.1, outEndA)
    s2.bind fun p2 =>
      if p1.2.1 = p2.2 then some p2.1
      else run4BitChunks t scale zp input p1.2.2 p1.2.1 (p2.2 - p1.2.1)
        0 chunks p2.1

/-- The Int4x2 instantiation (qmath.h line 227). -/
def ParQuantizeLinearStdS4 := ParQuantizeLinearStd4Bit Int4Kind.s4

/-- The UInt4x2 instantiation (qmath.h line 228). -/
def ParQuantizeLinearStdU4 := ParQuantizeLinearStd4Bit Int4Kind.u4

/-- The fully sequential per-element reference of the spec: element i of the
input is quantized with `quant4` and stored at logical 4-bit index j + i (low
nibble if even, high nibble if odd), one element at a time. -/
def seqRef4 (t : Int4Kind) (scale : ℚ) (zp : ℤ) (input : List ℚ) :
    ℕ → ℕ → ℕ → PackedOut → Option PackedOut
  | _, _, 0, out => some out
  | inIdx, j, n + 1, out =>
    (input[inIdx]?).bind fun x =>
      seqRef4 t scale zp input (inIdx + 1) (j + 1) n
        (nibSet j (quant4 t scale zp x) out)

/-- The boundary adjustment of the macro's serial steps: an odd out_start
advances by one, an odd out_end retreats by one. -/
def adjustBounds (s e : ℕ) : ℕ × ℕ :=
  ((if s % 2 = 1 then s + 1 else s), (if e % 2 = 1 then e - 1 else e))

/-- Number of parallel blocks of the 4-bit quantizer's middle region. -/
def numBlocks4 (s e : ℕ) : ℕ :=
  ((adjustBounds s e).2 - (adjustBounds s e).1 + 127) / 128

/-- The effect of quantizing the logical 4-bit range [a, a + n) with values v:
nibble j gets v j inside the range; every other nibble keeps its old value. -/
def writeSpec (v : ℕ → ℤ) (a n : ℕ) (out : PackedOut) (k : ℕ) : ℤ × ℤ :=
  (if a ≤ 2 * k ∧ 2 * k < a + n then v (2 * k) else (out k).1,
   if a ≤ 2 * k + 1 ∧ 2 * k + 1 < a + n then v (2 * k + 1) else (out k).2)

lemma writeSpec_zero (v : ℕ → ℤ) (a : ℕ) (out : PackedOut) :
    writeSpec v a 0 out = out := by
  funext k
  simp only [writeSpec]
  rw [if_neg (by omega), if_neg (by omega)]

lemma writeSpec_congr (v w : ℕ → ℤ) (a n : ℕ) (out : PackedOut)
    (h : ∀ j, a ≤ j → j < a + n → v j = w j) :
    writeSpec v a n out = writeSpec w a n out := by
  funext k
  simp only [writeSpec, Prod.mk.injEq]
  constructor <;> split_ifs with hc <;> first
    | rfl
    | exact h _ hc.1 hc.2

lemma writeSpec_chain (v : ℕ → ℤ) (a m n : ℕ) (out : PackedOut) :
    writeSpec v (a + m) n (writeSpec v a m out) = writeSpec v a (m + n) out := by
  funext k
  simp only [writeSpec, Prod.mk.injEq]
  constructor <;> split_ifs <;> first | rfl | omega

lemma writeSpec_chain_rev (v : ℕ → ℤ) (a m n : ℕ) (out : PackedOut) :
    writeSpec v a m (writeSpec v (a + m) n out) = writeSpec v a (m + n) out := by
  funext k
  simp only [writeSpec, Prod.mk.injEq]
  constructor <;> split_ifs <;> first | rfl | omega

lemma nibSet_eq_writeSpec (v : ℕ → ℤ) (a : ℕ) (out : PackedOut) :
    nibSet a (v a) out = writeSpec v a 1 out := by
  funext k
  by_cases hpar : a % 2 = 0
  · simp only [nibSet, writeSpec]
    rw [if_pos hpar]
    simp only [setElem0]
    by_cases hk : k = a / 2
    · subst hk
      have h2k : 2 * (a / 2) = a := by omega
      rw [if_pos rfl, h2k, if_pos ⟨le_refl a, by omega⟩, if_neg (by omega)]
    · rw [if_neg hk, if_neg (by omega), if_neg (by omega)]
  · simp only [nibSet, writeSpec]
    rw [if_neg hpar]
    simp only [setElem1]
    by_cases hk : k = a / 2
    · subst hk
      have h2k : 2 * (a / 2) + 1 = a := by omega
      rw [if_pos rfl, h2k, if_neg (by omega), if_pos ⟨le_refl a, by omega⟩]
    · rw [if_neg hk, if_neg (by omega), if_neg (by omega)]

lemma setByte_eq_writeSpec (v : ℕ → ℤ) (b : ℕ) (out : PackedOut) :
    setByte b (v (2 * b), v (2 * b + 1)) out = writeSpec v (2 * b) 2 out := by
  funext k
  simp only [setByte, writeSpec]
  by_cases hk : k = b
  · subst hk
    rw [if_pos rfl, if_pos ⟨le_refl _, by omega⟩, if_pos ⟨by omega, by omega⟩]
  · rw [if_neg hk, if_neg (by omega), if_neg (by omega)]

lemma writeSpec_outside (v : ℕ → ℤ) (a n : ℕ) (out : PackedOut) (j : ℕ)
    (h : j < a ∨ a + n ≤ j) :
    nibGet (writeSpec v a n out) j = nibGet out j := by
  simp only [nibGet, writeSpec]
  by_cases hpar : j % 2 = 0
  · rw [if_pos hpar, if_pos hpar, if_neg (by omega)]
  · rw [if_neg hpar, if_neg hpar, if_neg (by omega)]

lemma getD_of_lt (l : List ℚ) (i : ℕ) (h : i < l.length) :
    l[i]? = some (l.getD i 0) := by
  rw [List.getElem?_eq_getElem h, List.getD_eq_getElem?_getD,
    List.getElem?_eq_getElem h]
  rfl

lemma seqRef4_eq (t : Int4Kind) (scale : ℚ) (zp : ℤ) (input : List ℚ) :
    ∀ n inIdx j : ℕ, ∀ out : PackedOut, inIdx + n ≤ input.length →
      seqRef4 t scale zp input inIdx j n out =
        some (writeSpec
          (fun m => quant4 t scale zp (input.getD (inIdx + (m - j)) 0))
          j n out) := by
  intro n
  induction n with
  | zero =>
    intro inIdx j out h
    rw [writeSpec_zero]
    rfl
  | succ n ih =>
    intro inIdx j out h
    have hlt : inIdx < input.length := by omega
    show ((input[inIdx]?).bind fun x =>
      seqRef4 t scale zp input (inIdx + 1) (j + 1) n
        (nibSet j (quant4 t scale zp x) out)) = _
    rw [getD_of_lt input inIdx hlt, Option.some_bind]
    rw [ih (inIdx + 1) (j + 1) _ (by omega)]
    congr 1
    have hv : nibSet j (quant4 t scale zp (input.getD inIdx 0)) out =
        writeSpec (fun m => quant4 t scale zp (input.getD (inIdx + (m - j)) 0))
          j 1 out := by
      have hj : quant4 t scale zp (input.getD inIdx 0) =
          (fun m => quant4 t scale zp (input.getD (inIdx + (m - j)) 0)) j := by
        simp
      rw [hj]
      exact nibSet_eq_writeSpec
        (fun m => quant4 t scale zp (input.getD (inIdx + (m - j)) 0)) j out
    rw [hv]
    rw [writeSpec_congr
      (fun m => quant4 t scale zp (input.getD (inIdx + 1 + (m - (j + 1))) 0))
      (fun m => quant4 t scale zp (input.getD (inIdx + (m - j)) 0))
      (j + 1) n _ ?_]
    · have hch := writeSpec_chain
        (fun m => quant4 t scale zp (input.getD (inIdx + (m - j)) 0)) j 1 n out
      rw [hch, Nat.add_comm 1 n]
    · intro m hm1 hm2
      have hidx : inIdx + 1 + (m - (j + 1)) = inIdx + (m - j) := by omega
      show quant4 t scale zp (input.getD (inIdx + 1 + (m - (j + 1))) 0) =
        quant4 t scale zp (input.getD (inIdx + (m - j)) 0)
      rw [hidx]

lemma mlas_eq (t : Int4Kind) (scale : ℚ) (zp : ℤ) (input : List ℚ) :
    ∀ n inIdx byteIdx : ℕ, ∀ out : PackedOut, inIdx + n ≤ input.length →
      mlasQuantizeLinear4 t scale zp input inIdx byteIdx n out =
        some (writeSpec
          (fun m => quant4 t scale zp (input.getD (inIdx + (m - 2 * byteIdx)) 0))
          (2 * byteIdx) n out) := by
  intro n
  induction n using Nat.twoStepInduction with
  | zero =>
    intro inIdx byteIdx out h
    rw [writeSpec_zero]
    rfl
  | one =>
    intro inIdx byteIdx out h
    have hlt : inIdx < input.length := by omega
    show ((input[inIdx]?).bind fun x =>
      some (setElem0 byteIdx (quant4 t scale zp x) out)) = _
    rw [getD_of_lt input inIdx hlt, Option.some_bind]
    congr 1
    have e2 : (2 * byteIdx) / 2 = byteIdx := by omega
    have hset : setElem0 byteIdx (quant4 t scale zp (input.getD inIdx 0)) out =
        nibSet (2 * byteIdx)
          ((fun m => quant4 t scale zp (input.getD (inIdx + (m - 2 * byteIdx)) 0))
            (2 * byteIdx)) out := by
      simp only [nibSet, Nat.mul_mod_right, eq_self_iff_true, if_true, e2,
        Nat.sub_self, Nat.add_zero]
    rw [hset]
    exact nibSet_eq_writeSpec
      (fun m => quant4 t scale zp (input.getD (inIdx + (m - 2 * byteIdx)) 0))
      (2 * byteIdx) out
  | more n ih1 ih2 =>
    intro inIdx byteIdx out h
    have hlt1 : inIdx < input.length := by omega
    have hlt2 : inIdx + 1 < input.length := by omega
    show ((input[inIdx]?).bind fun x =>
      (input[inIdx + 1]?).bind fun y =>
        mlasQuantizeLinear4 t scale zp input (inIdx + 2) (byteIdx + 1) n
          (setByte byteIdx (quant4 t scale zp x, quant4 t scale zp y) out)) = _
    rw [getD_of_lt input inIdx hlt1, Option.some_bind, getD_of_lt input (inIdx + 1) hlt2,
      Option.some_bind]
    rw [ih1 (inIdx + 2) (byteIdx + 1) _ (by omega)]
    congr 1
    have hx : quant4 t scale zp (input.getD inIdx 0) =
        (fun m => quant4 t scale zp (input.getD (inIdx + (m - 2 * byteIdx)) 0))
          (2 * byteIdx) := by
      simp
    have hy : quant4 t scale zp (input.getD (inIdx + 1) 0) =
        (fun m => quant4 t scale zp (input.getD (inIdx + (m - 2 * byteIdx)) 0))
          (2 * byteIdx + 1) := by
      simp
    rw [hx, hy, setByte_eq_writeSpec
      (fun m => quant4 t scale zp (input.getD (inIdx + (m - 2 * byteIdx)) 0))
      byteIdx out]
    rw [writeSpec_congr
      (fun m => quant4 t scale zp (input.getD (inIdx + 2 + (m - 2 * (byteIdx + 1))) 0))
      (fun m => quant4 t scale zp (input.getD (inIdx + (m - 2 * byteIdx)) 0))
      (2 * (byteIdx + 1)) n _ ?_]
    · have h22 : 2 * (byteIdx + 1) = 2 * byteIdx + 2 := by ring
      rw [h22, writeSpec_chain, Nat.add_comm 2 n]
    · intro m hm1 hm2
      show quant4 t scale zp (input.getD (inIdx + 2 + (m - 2 * (byteIdx + 1))) 0) =
        quant4 t scale zp (input.getD (inIdx + (m - 2 * byteIdx)) 0)
      have hidx : inIdx + 2 + (m - 2 * (byteIdx + 1)) = inIdx + (m - 2 * byteIdx) := by
        omega
      rw [hidx]

lemma run4_eq (t : Int4Kind) (scale : ℚ) (zp : ℤ) (input : List ℚ)
    (inpStart outStart n nb : ℕ) (hnb : nb = (n + 127) / 128) (hn : 0 < n)
    (hlen : inpStart + n ≤ input.length) (heven : outStart % 2 = 0) :
    ∀ chunks : List ℕ, ∀ b : ℕ, ∀ out : PackedOut,
      b + chunks.sum = nb → (∀ l ∈ chunks, 0 < l) →
      run4BitChunks t scale zp input inpStart outStart n b chunks out =
        some (writeSpec
          (fun m => quant4 t scale zp (input.getD (inpStart + (m - outStart)) 0))
          (outStart + min n (b * 128)) (n - min n (b * 128)) out) := by
  intro chunks
  induction chunks with
  | nil =>
    intro b out hsum hpos
    have hb : b = nb := by
      simp only [List.sum_nil] at hsum
      omega
    subst hb
    have hcov : n ≤ b * 128 := by
      have := blocks_cover n 128 b (by norm_num) (by omega)
      omega
    rw [min_eq_left hcov, Nat.sub_self, writeSpec_zero]
    rfl
  | cons len rest ih =>
    intro b out hsum hpos
    have hlenpos : 0 < len := hpos len (List.mem_cons_self _ _)
    have hsum2 : (b + len) + rest.sum = nb := by
      simp only [List.sum_cons] at hsum
      omega
    have hpos2 : ∀ l ∈ rest, 0 < l := fun l hl => hpos l (List.mem_cons_of_mem _ hl)
    have hb_lt : b < nb := by omega
    have hbbs : b * 128 < n := by
      have := block_start_lt n 128 nb b (by norm_num) (by omega) hn hb_lt
      omega
    have hc : min n (b * 128) = b * 128 := min_eq_right (le_of_lt hbbs)
    have hcc2 : b * 128 ≤ min n ((b + len) * 128) := by
      refine le_min (le_of_lt hbbs) ?_
      exact Nat.mul_le_mul_right _ (by omega)
    have hc2n : min n ((b + len) * 128) ≤ n := min_le_left _ _
    show (mlasQuantizeLinear4 t scale zp input (b * 128 + inpStart)
        ((b * 128 + outStart) / 2) (min n ((b + len) * 128) - b * 128) out).bind
      (fun out2 => run4BitChunks t scale zp input inpStart outStart n (b + len)
        rest out2) = _
    rw [mlas_eq t scale zp input (min n ((b + len) * 128) - b * 128)
      (b * 128 + inpStart) ((b * 128 + outStart) / 2) out (by omega),
      Option.some_bind]
    have hB : 2 * ((b * 128 + outStart) / 2) = b * 128 + outStart := by omega
    simp only [hB]
    rw [writeSpec_congr
      (fun m => quant4 t scale zp
        (input.getD (b * 128 + inpStart + (m - (b * 128 + outStart))) 0))
      (fun m => quant4 t scale zp (input.getD (inpStart + (m - outStart)) 0))
      (b * 128 + outStart) (min n ((b + len) * 128) - b * 128) out ?_]
    · rw [ih (b + len) _ hsum2 hpos2]
      congr 1
      rw [hc]
      have hco : b * 128 + outStart = outStart + b * 128 := Nat.add_comm _ _
      simp only [hco]
      have ha : outStart + min n ((b + len) * 128) =
          (outStart + b * 128) + (min n ((b + len) * 128) - b * 128) := by omega
      rw [ha, writeSpec_chain]
      have hcnt : (min n ((b + len) * 128) - b * 128) +
          (n - min n ((b + len) * 128)) = n - b * 128 := by omega
      rw [hcnt]
    · intro m hm1 hm2
      show quant4 t scale zp
          (input.getD (b * 128 + inpStart + (m - (b * 128 + outStart))) 0) =
        quant4 t scale zp (input.getD (inpStart + (m - outStart)) 0)
      have hidx : b * 128 + inpStart + (m - (b * 128 + outStart)) =
          inpStart + (m - outStart) := by omega
      rw [hidx]


lemma setElem1_as_writeSpec (v : ℕ → ℤ) (a : ℕ) (hodd : a % 2 = 1)
    (X : PackedOut) : setElem1 (a / 2) (v a) X = writeSpec v a 1 X := by
  rw [← nibSet_eq_writeSpec]
  simp only [nibSet]
  rw [if_neg (by omega)]

lemma setElem0_as_writeSpec (v : ℕ → ℤ) (a : ℕ) (heven : a % 2 = 0)
    (X : PackedOut) : setElem0 (a / 2) (v a) X = writeSpec v a 1 X := by
  rw [← nibSet_eq_writeSpec]
  simp only [nibSet]
  rw [if_pos (by omega)]

/-- C1 (amended): for out_start ≤ out_end - excluding the degenerate
out_start = out_end at an odd index, where the code reads out of bounds and
writes a stray nibble - the packed output of the 4-bit quantizers over
[out_start, out_end) equals the fully sequential per-element reference for
every TryParallelFor schedule, and no nibble outside the range (in particular
the unrelated half of a shared boundary byte) is altered. -/
theorem parquant4_spec (t : Int4Kind) (input : List ℚ) (s e : ℕ) (scale : ℚ)
    (zp : ℤ) (output : PackedOut) (chunks : List ℕ)
    (hse : s ≤ e) (hdeg : s < e ∨ s % 2 = 0)
    (hlen : input.length = e - s)
    (hsum : chunks.sum = numBlocks4 s e) (hpos : ∀ l ∈ chunks, 0 < l) :
    ∃ r : PackedOut,
      ParQuantizeLinearStd4Bit t input s e scale zp output chunks = some r ∧
      seqRef4 t scale zp input 0 s (e - s) output = some r ∧
      ∀ j : ℕ, j < s ∨ e ≤ j → nibGet r j = nibGet output j := by
  refine ⟨writeSpec
    (fun m => quant4 t scale zp (input.getD (0 + (m - s)) 0)) s (e - s) output,
    ?_, ?_, ?_⟩
  · by_cases hs : s % 2 = 1 <;> by_cases he : e % 2 = 1
    · -- s odd, e odd
      have hslt : s < e := by omega
      have he2 : s + 2 ≤ e := by omega
      have h0lt : 0 < input.length := by omega
      have hllt : e - s - 1 < input.length := by omega
      simp only [ParQuantizeLinearStd4Bit]
      rw [if_pos hs, getD_of_lt input 0 h0lt]
      simp only [Option.some_bind]
      rw [if_pos he, if_neg (by omega : ¬ e - s = 0),
        getD_of_lt input (e - s - 1) hllt]
      simp only [Option.some_bind]
      have hv1 : quant4 t scale zp (input.getD 0 0) =
          (fun m => quant4 t scale zp (input.getD (0 + (m - s)) 0)) s := by
        simp
      rw [hv1, setElem1_as_writeSpec
        (fun m => quant4 t scale zp (input.getD (0 + (m - s)) 0)) s hs]
      have hv2 : quant4 t scale zp (input.getD (e - s - 1) 0) =
          (fun m => quant4 t scale zp (input.getD (0 + (m - s)) 0)) (e - 1) := by
        show _ = quant4 t scale zp (input.getD (0 + (e - 1 - s)) 0)
        have hix : 0 + (e - 1 - s) = e - s - 1 := by omega
        rw [hix]
      rw [hv2, setElem0_as_writeSpec
        (fun m => quant4 t scale zp (input.getD (0 + (m - s)) 0)) (e - 1)
        (by omega)]
      by_cases hmid : s + 1 = e - 1
      · rw [if_pos hmid]
        congr 1
        have he1 : e - 1 = s + 1 := hmid.symm
        rw [he1, writeSpec_chain]
        have hes : e - s = 1 + 1 := by omega
        rw [hes]
      · rw [if_neg hmid]
        rw [run4_eq t scale zp input 1 (s + 1) (e - 1 - (s + 1)) (numBlocks4 s e)
          (by
            simp only [numBlocks4, adjustBounds]
            rw [if_pos hs, if_pos he])
          (by omega) (by omega) (by omega) chunks 0 _ (by simpa using hsum) hpos]
        congr 1
        simp only [Nat.zero_mul, Nat.min_zero, Nat.add_zero, Nat.sub_zero]
        rw [writeSpec_congr
          (fun m => quant4 t scale zp (input.getD (1 + (m - (s + 1))) 0))
          (fun m => quant4 t scale zp (input.getD (0 + (m - s)) 0))
          (s + 1) (e - 1 - (s + 1)) _ ?_]
        · set nmid := e - 1 - (s + 1) with hnm
          have he1 : e - 1 = (s + 1) + nmid := by omega
          rw [he1, writeSpec_chain_rev, writeSpec_chain]
          have hcnt : e - s = 1 + (nmid + 1) := by omega
          rw [hcnt]
        · intro m hm1 hm2
          show quant4 t scale zp (input.getD (1 + (m - (s + 1))) 0) =
            quant4 t scale zp (input.getD (0 + (m - s)) 0)
          have hidx : 1 + (m - (s + 1)) = 0 + (m - s) := by omega
          rw [hidx]
    · -- s odd, e even
      have hslt : s < e := by omega
      have h0lt : 0 < input.length := by omega
      simp only [ParQuantizeLinearStd4Bit]
      rw [if_pos hs, getD_of_lt input 0 h0lt]
      simp only [Option.some_bind]
      rw [if_neg he]
      simp only [Option.some_bind]
      have hv1 : quant4 t scale zp (input.getD 0 0) =
          (fun m => quant4 t scale zp (input.getD (0 + (m - s)) 0)) s := by
        simp
      rw [hv1, setElem1_as_writeSpec
        (fun m => quant4 t scale zp (input.getD (0 + (m - s)) 0)) s hs]
      by_cases hmid : s + 1 = e
      · rw [if_pos hmid]
        congr 1
        have hes : e - s = 1 := by omega
        rw [hes]
      · rw [if_neg hmid]
        rw [run4_eq t scale zp input 1 (s + 1) (e - (s + 1)) (numBlocks4 s e)
          (by
            simp only [numBlocks4, adjustBounds]
            rw [if_pos hs, if_neg he])
          (by omega) (by omega) (by omega) chunks 0 _ (by simpa using hsum) hpos]
        congr 1
        simp only [Nat.zero_mul, Nat.min_zero, Nat.add_zero, Nat.sub_zero]
        rw [writeSpec_congr
          (fun m => quant4 t scale zp (input.getD (1 + (m - (s + 1))) 0))
          (fun m => quant4 t scale zp (input.getD (0 + (m - s)) 0))
          (s + 1) (e - (s + 1)) _ ?_]
        · rw [writeSpec_chain]
          have hcnt : e - s = 1 + (e - (s + 1)) := by omega
          rw [hcnt]
        · intro m hm1 hm2
          show quant4 t scale zp (input.getD (1 + (m - (s + 1))) 0) =
            quant4 t scale zp (input.getD (0 + (m - s)) 0)
          have hidx : 1 + (m - (s + 1)) = 0 + (m - s) := by omega
          rw [hidx]
    · -- s even, e odd
      have hslt : s < e := by omega
      have hllt : e - s - 1 < input.length := by omega
      simp only [ParQuantizeLinearStd4Bit]
      rw [if_neg hs]
      simp only [Option.some_bind]
      rw [if_pos he, if_neg (by omega : ¬ e - s = 0),
        getD_of_lt input (e - s - 1) hllt]
      simp only [Option.some_bind]
      have hv2 : quant4 t scale zp (input.getD (e - s - 1) 0) =
          (fun m => quant4 t scale zp (input.getD (0 + (m - s)) 0)) (e - 1) := by
        show _ = quant4 t scale zp (input.getD (0 + (e - 1 - s)) 0)
        have hix : 0 + (e - 1 - s) = e - s - 1 := by omega
        rw [hix]
      rw [hv2, setElem0_as_writeSpec
        (fun m => quant4 t scale zp (input.getD (0 + (m - s)) 0)) (e - 1)
        (by omega)]
      by_cases hmid : s = e - 1
      · rw [if_pos hmid]
        congr 1
        have he1 : e - 1 = s := hmid.symm
        have hes : e - s = 1 := by omega
        rw [he1, hes]
      · rw [if_neg hmid]
        rw [run4_eq t scale zp input 0 s (e - 1 - s) (numBlocks4 s e)
          (by
            simp only [numBlocks4, adjustBounds]
            rw [if_neg hs, if_pos he])
          (by omega) (by omega) (by omega) chunks 0 _ (by simpa using hsum) hpos]
        congr 1
        simp only [Nat.zero_mul, Nat.min_zero, Nat.add_zero, Nat.sub_zero]
        set nmid := e - 1 - s with hnm
        have he1 : e - 1 = s + nmid := by omega
        rw [he1, writeSpec_chain_rev]
        have hcnt : e - s = nmid + 1 := by omega
        rw [hcnt]
    · -- s even, e even
      simp only [ParQuantizeLinearStd4Bit]
      rw [if_neg hs]
      simp only [Option.some_bind]
      rw [if_neg he]
      simp only [Option.some_bind]
      by_cases hmid : s = e
      · rw [if_pos hmid]
        congr 1
        have hes : e - s = 0 := by omega
        rw [hes, writeSpec_zero]
      · rw [if_neg hmid]
        rw [run4_eq t scale zp input 0 s (e - s) (numBlocks4 s e)
          (by
            simp only [numBlocks4, adjustBounds]
            rw [if_neg hs, if_neg he])
          (by omega) (by omega) (by omega) chunks 0 _ (by simpa using hsum) hpos]
        congr 1
        simp only [Nat.zero_mul, Nat.min_zero, Nat.add_zero, Nat.sub_zero]
  · exact seqRef4_eq t scale zp input (e - s) 0 s output (by omega)
  · intro j hj
    exact writeSpec_outside _ s (e - s) output j (by omega)

/-- C1 counterexample: at out_start = out_end = 1 (an empty range starting at
an odd index, allowed by the claim's `out_start ≤ out_end`), the quantizer
reads Input[0] of a zero-length input buffer (and would write the high nibble
of byte 0), so its result is not the sequential reference's, which leaves the
output untouched. -/
theorem parquant4_cex :
    ParQuantizeLinearStd4Bit Int4Kind.s4 [] 1 1 1 0 (fun _ => (0, 0)) [] =
      none ∧
    seqRef4 Int4Kind.s4 1 0 [] 0 1 0 (fun _ => (0, 0)) =
      some (fun _ => (0, 0)) ∧
    ¬ (ParQuantizeLinearStd4Bit Int4Kind.s4 [] 1 1 1 0 (fun _ => (0, 0)) [] =
        seqRef4 Int4Kind.s4 1 0 [] 0 1 0 (fun _ => (0, 0))) := by
  refine ⟨rfl, rfl, ?_⟩
  intro h
  exact Option.noConfusion h

/-- C1 witness: range [1, 5) with both boundaries odd, a two-element middle
and a single chunk. -/
theorem parquant4_spec_witness :
    ∃ r : PackedOut,
      ParQuantizeLinearStd4Bit Int4Kind.s4 [(1 : ℚ), 2, 3, 4] 1 5 1 0
        (fun _ => (0, 0)) [1] = some r ∧
      seqRef4 Int4Kind.s4 1 0 [(1 : ℚ), 2, 3, 4] 0 1 (5 - 1)
        (fun _ => (0, 0)) = some r ∧
      ∀ j : ℕ, j < 1 ∨ 5 ≤ j →
        nibGet r j = nibGet (fun _ => (0, 0)) j :=
  parquant4_spec Int4Kind.s4 [(1 : ℚ), 2, 3, 4] 1 5 1 0 (fun _ => (0, 0)) [1]
    (by norm_num) (Or.inl (by norm_num)) rfl rfl
    (by
      intro l hl
      rw [List.mem_singleton] at hl
      omega)

/-- C2: after the serial handling of the odd boundary elements (and the
early return on an empty range), the remaining count is even and starts and
ends on byte boundaries, so the assertion N % 2 == 0 never fails; with the
even block size 128, distinct parallel units own disjoint ranges of whole
output bytes. -/
theorem adjustBounds_spec (s e : ℕ) (h : s ≤ e) :
    ((adjustBounds s e).2 - (adjustBounds s e).1) % 2 = 0 ∧
    (adjustBounds s e).1 % 2 = 0 ∧
    (adjustBounds s e).2 % 2 = 0 ∧
    (∀ b : ℕ, ((adjustBounds s e).1 + b * 128) % 2 = 0 ∧
      ((adjustBounds s e).1 +
        min ((adjustBounds s e).2 - (adjustBounds s e).1) (b * 128)) % 2 = 0) ∧
    (∀ b1 l1 b2 : ℕ, b1 + l1 ≤ b2 →
      ((adjustBounds s e).1 +
        min ((adjustBounds s e).2 - (adjustBounds s e).1) ((b1 + l1) * 128)) / 2 ≤
      ((adjustBounds s e).1 + b2 * 128) / 2) := by
  refine ⟨?_, ?_, ?_, fun b => ⟨?_, ?_⟩, fun b1 l1 b2 hb => ?_⟩ <;>
    simp only [adjustBounds] <;> split_ifs <;> omega

/-- C2 witness: out_start = 1, out_end = 5. -/
theorem adjustBounds_spec_witness :
    ((adjustBounds 1 5).2 - (adjustBounds 1 5).1) % 2 = 0 ∧
    (adjustBounds 1 5).1 % 2 = 0 ∧
    (adjustBounds 1 5).2 % 2 = 0 ∧
    (∀ b : ℕ, ((adjustBounds 1 5).1 + b * 128) % 2 = 0 ∧
      ((adjustBounds 1 5).1 +
        min ((adjustBounds 1 5).2 - (adjustBounds 1 5).1) (b * 128)) % 2 = 0) ∧
    (∀ b1 l1 b2 : ℕ, b1 + l1 ≤ b2 →
      ((adjustBounds 1 5).1 +
        min ((adjustBounds 1 5).2 - (adjustBounds 1 5).1) ((b1 + l1) * 128)) / 2 ≤
      ((adjustBounds 1 5).1 + b2 * 128) / 2) :=
  adjustBounds_spec 1 5 (by norm_num)

/-- A half-precision float, carried at its exact rational value (the
float16 → float conversion is exact). -/
structure MLFloat16 where
  val : ℚ

/-- MLFloat16::ToFloat(): widen to the working float value. -/
def MLFloat16.ToFloat (x : MLFloat16) : ℚ := x.val

/-- static_cast<int32_t> applied to a float value: truncation toward zero. -/
def truncToward0 (q : ℚ) : ℤ := if 0 ≤ q then ⌊q⌋ else ⌈q⌉

/-- The element loop of the MLFloat16 overload of ParQuantizeLinearStd
(qmath.h lines 250-255): ival = int32(Input[i].ToFloat() / fscale) +
ZeroPoint, clamped to the output type's full range and narrowed. -/
def f16Loop (qt : QType) (input : List MLFloat16) (fscale : ℚ) (zp : ℤ) :
    ℕ → ℕ → (ℕ → ℤ) → (ℕ → ℤ)
  | _, 0, out => out
  | i, cnt + 1, out =>
    f16Loop qt input fscale zp (i + 1) cnt
      (fun j => if j = i then
          qt.cast (min qt.tmax (max qt.tmin
            (truncToward0 ((input.getD i ⟨0⟩).ToFloat / fscale) + zp)))
        else out j)

/-- The MLFloat16 overload of ParQuantizeLinearStd (qmath.h lines 238-257):
TryParallelFor over ceil(N / 128) blocks; each chunk converts Scale once and
runs the element loop on its exclusive index range. -/
def ParQuantizeLinearStdF16 (qt : QType) (input : List MLFloat16)
    (scale : MLFloat16) (zp : ℤ) : ℕ → List ℕ → (ℕ → ℤ) → (ℕ → ℤ)
  | _, [], out => out
  | b, len :: rest, out =>
    ParQuantizeLinearStdF16 qt input scale zp (b + len) rest
      (f16Loop qt input scale.ToFloat zp (b * 128)
        (min input.length ((b + len) * 128) - b * 128) out)

lemma f16Loop_eq (qt : QType) (input : List MLFloat16) (fscale : ℚ) (zp : ℤ) :
    ∀ cnt i : ℕ, ∀ out : ℕ → ℤ,
      f16Loop qt input fscale zp i cnt out =
        fun j => if i ≤ j ∧ j < i + cnt then
            qt.cast (min qt.tmax (max qt.tmin
              (truncToward0 ((input.getD j ⟨0⟩).ToFloat / fscale) + zp)))
          else out j := by
  intro cnt
  induction cnt with
  | zero =>
    intro i out
    funext j
    show out j = _
    rw [if_neg (by omega)]
  | succ cnt ih =>
    intro i out
    show f16Loop qt input fscale zp (i + 1) cnt _ = _
    rw [ih (i + 1) _]
    funext j
    by_cases h1 : i + 1 ≤ j ∧ j < i + 1 + cnt
    · rw [if_pos h1, if_pos (by omega)]
    · rw [if_neg h1]
      by_cases h2 : j = i
      · subst h2
        rw [if_pos rfl, if_pos (by omega)]
      · rw [if_neg h2, if_neg (by omega)]

lemma f16Chunks_eq (qt : QType) (input : List MLFloat16) (scale : MLFloat16)
    (zp : ℤ) :
    ∀ chunks : List ℕ, ∀ b : ℕ, ∀ out : ℕ → ℤ,
      b + chunks.sum = (input.length + 127) / 128 → (∀ l ∈ chunks, 0 < l) →
      ParQuantizeLinearStdF16 qt input scale zp b chunks out =
        fun j => if min input.length (b * 128) ≤ j ∧ j < input.length then
            qt.cast (min qt.tmax (max qt.tmin
              (truncToward0 ((input.getD j ⟨0⟩).ToFloat / scale.ToFloat) + zp)))
          else out j := by
  intro chunks
  induction chunks with
  | nil =>
    intro b out hsum hpos
    have hcov : input.length ≤ b * 128 := by
      have hb : b = (input.length + 127) / 128 := by
        simp only [List.sum_nil] at hsum
        omega
      have := blocks_cover input.length 128 b (by norm_num) (by omega)
      omega
    funext j
    show out j = _
    rw [if_neg (by omega)]
  | cons len rest ih =>
    intro b out hsum hpos
    have hlenpos : 0 < len := hpos len (List.mem_cons_self _ _)
    have hsum2 : (b + len) + rest.sum = (input.length + 127) / 128 := by
      simp only [List.sum_cons] at hsum
      omega
    have hpos2 : ∀ l ∈ rest, 0 < l := fun l hl => hpos l (List.mem_cons_of_mem _ hl)
    have hL : 0 < input.length := by
      by_contra hc
      have h0 : input.length = 0 := by omega
      rw [h0] at hsum
      simp at hsum
      omega
    have hbbs : b * 128 < input.length := by
      have hblt : b < (input.length + 127) / 128 := by omega
      have := block_start_lt input.length 128 ((input.length + 127) / 128) b
        (by norm_num) (by omega) hL hblt
      omega
    show ParQuantizeLinearStdF16 qt input scale zp (b + len) rest _ = _
    rw [f16Loop_eq qt input scale.ToFloat zp
      (min input.length ((b + len) * 128) - b * 128) (b * 128) out]
    rw [ih (b + len) _ hsum2 hpos2]
    funext j
    by_cases ha : min input.length ((b + len) * 128) ≤ j ∧ j < input.length
    · rw [if_pos ha, if_pos (by omega)]
    · rw [if_neg ha]
      by_cases hb2 : b * 128 ≤ j ∧
          j < b * 128 + (min input.length ((b + len) * 128) - b * 128)
      · rw [if_pos hb2, if_pos (by omega)]
      · rw [if_neg hb2, if_neg (by omega)]

/-- C10: in the MLFloat16 overload of ParQuantizeLinearStd, every element is
first widened to a working float (ToFloat) and then quantized as
clamp(trunc(Input[i] / scale) + zero_point, type_min, type_max), where trunc
is integer truncation toward zero - unlike the round-to-nearest used
elsewhere (trunc(3/2) = 1 while round-to-nearest-even gives 2); elements
beyond N are untouched. -/
theorem parquantF16_spec (qt : QType) (input : List MLFloat16)
    (scale : MLFloat16) (zp : ℤ) (out0 : ℕ → ℤ) (chunks : List ℕ)
    (hsum : chunks.sum = (input.length + 127) / 128)
    (hpos : ∀ l ∈ chunks, 0 < l) :
    (∀ i : ℕ, i < input.length →
      ParQuantizeLinearStdF16 qt input scale zp 0 chunks out0 i =
        min qt.tmax (max qt.tmin
          (truncToward0 ((input.getD i ⟨0⟩).ToFloat / scale.ToFloat) + zp))) ∧
    (∀ i : ℕ, input.length ≤ i →
      ParQuantizeLinearStdF16 qt input scale zp 0 chunks out0 i = out0 i) ∧
    (∀ q : ℚ, 0 ≤ q → truncToward0 q = ⌊q⌋) ∧
    (∀ q : ℚ, q < 0 → truncToward0 q = ⌈q⌉) ∧
    truncToward0 (3/2) = 1 ∧ rne (3/2) = 2 := by
  have hrun := f16Chunks_eq qt input scale zp chunks 0 out0 (by simpa using hsum)
    hpos
  refine ⟨?_, ?_, ?_, ?_, ?_, ?_⟩
  · intro i hi
    rw [hrun]
    simp only []
    rw [if_pos (by constructor <;> omega)]
    refine QType.cast_eq_self qt _ ?_ ?_
    · refine le_min ?_ (le_max_left _ _)
      cases qt <;> decide
    · exact min_le_left _ _
  · intro i hi
    rw [hrun]
    simp only []
    rw [if_neg (by omega)]
  · intro q hq
    simp only [truncToward0, if_pos hq]
  · intro q hq
    simp only [truncToward0]
    rw [if_neg (by linarith)]
  · norm_num [truncToward0]
  · norm_num [rne]

/-- C10 witness: one element 3/2, unsigned 8-bit output, scale 1. -/
theorem parquantF16_spec_witness :
    (∀ i : ℕ, i < [MLFloat16.mk (3/2)].length →
      ParQuantizeLinearStdF16 QType.u8 [MLFloat16.mk (3/2)]
          (MLFloat16.mk 1) 0 0 [1] (fun _ => 0) i =
        min QType.u8.tmax (max QType.u8.tmin
          (truncToward0 (([MLFloat16.mk (3/2)].getD i ⟨0⟩).ToFloat /
            (MLFloat16.mk 1).ToFloat) + 0))) ∧
    (∀ i : ℕ, [MLFloat16.mk (3/2)].length ≤ i →
      ParQuantizeLinearStdF16 QType.u8 [MLFloat16.mk (3/2)]
          (MLFloat16.mk 1) 0 0 [1] (fun _ => 0) i = (fun _ => (0 : ℤ)) i) ∧
    (∀ q : ℚ, 0 ≤ q → truncToward0 q = ⌊q⌋) ∧
    (∀ q : ℚ, q < 0 → truncToward0 q = ⌈q⌉) ∧
    truncToward0 (3/2) = 1 ∧ rne (3/2) = 2 :=
  parquantF16_spec QType.u8 [MLFloat16.mk (3/2)] (MLFloat16.mk 1) 0
    (fun _ => 0) [1] rfl
    (by
      intro l hl
      rw [List.mem_singleton] at hl
      omega)
